import Mathlib

/-!
Verification of the btdt caching system against its specification.

The definitions below are a shallow embedding of the Rust sources:
bytes are lists of naturals, machine integers are `Nat`/`Int` with
explicit truncation where overflow matters, storage is a flat map from
path segments to byte contents, and fallible operations return
`Except`.  Each definition names the source item it embeds.
-/

namespace Btdt

/-- Byte strings, one natural per byte (conceptually `< 256`). -/
abbrev Bytes := List Nat

instance {ε α : Type} [DecidableEq ε] [DecidableEq α] :
    DecidableEq (Except ε α) := fun a b =>
  match a, b with
  | .ok x, .ok y =>
    if h : x = y then .isTrue (by rw [h]) else
      .isFalse (fun hc => h (by injection hc))
  | .error x, .error y =>
    if h : x = y then .isTrue (by rw [h]) else
      .isFalse (fun hc => h (by injection hc))
  | .ok _, .error _ => .isFalse (fun hc => Except.noConfusion hc)
  | .error _, .ok _ => .isFalse (fun hc => Except.noConfusion hc)

/-- Little-endian byte decomposition of a natural into `w` bytes
(the width is fixed by the field type in the source). -/
def leBytes : Nat → Nat → Bytes
  | 0, _ => []
  | w + 1, n => n % 256 :: leBytes w (n / 256)

/-- Read a little-endian byte string back into a natural. -/
def fromLe : Bytes → Nat
  | [] => 0
  | b :: bs => b % 256 + 256 * fromLe bs

/-- Encoding of a `u16` field (little endian, as in the archived record). -/
def encU16 (n : Nat) : Bytes := leBytes 2 (n % 2 ^ 16)

/-- Encoding of a `u32` field. -/
def encU32 (n : Nat) : Bytes := leBytes 4 (n % 2 ^ 32)

/-- Encoding of an `i64` field (two's complement, little endian). -/
def encI64 (i : Int) : Bytes := leBytes 8 (i % 2 ^ 64).toNat

/-- Decode a `u16` from the first two bytes. -/
def decU16 (bs : Bytes) : Nat := fromLe (bs.take 2)

/-- Decode a `u32` from the first four bytes. -/
def decU32 (bs : Bytes) : Nat := fromLe (bs.take 4)

/-- Decode an `i64` (two's complement) from the first eight bytes. -/
def decI64 (bs : Bytes) : Int :=
  let n := fromLe (bs.take 8)
  if n < 2 ^ 63 then (n : Int) else (n : Int) - 2 ^ 64

/-- A UTC timestamp as chrono represents it: seconds plus subsecond
nanoseconds, ordered lexicographically (models `chrono::DateTime<Utc>`
through its `timestamp()` / `timestamp_subsec_nanos()` projections). -/
structure Ts where
  secs : Int
  nsecs : Nat
  deriving DecidableEq, Repr

/-- Lexicographic order on timestamps (chrono's `DateTime` order). -/
def tsLEb (a b : Ts) : Bool :=
  a.secs < b.secs ∨ (a.secs = b.secs ∧ a.nsecs ≤ b.nsecs)

/-- `meta.rs` `MetaV1`: schema version, 16-byte blob id, last-access
seconds (`i64`) and subsecond nanoseconds (`u32`). -/
structure MetaV1 where
  version : Nat
  blobId : Bytes
  latestAccess : Int
  latestAccessNsecs : Nat
  deriving DecidableEq, Repr

/-- `meta.rs` `META_MAX_SIZE`: the serialized size of a meta record. -/
def META_MAX_SIZE : Nat := 32

/-- The rkyv-archived byte layout of `MetaV1`.  The compiler orders the
archived fields by decreasing alignment (`i64`, `u32`, `u16`, then the
byte array) and pads the struct to its 8-byte alignment; the repository
pins the resulting total size to 32 bytes
(`test_meta_max_size_is_accurate`). -/
def MetaV1.toBytes (m : MetaV1) : Bytes :=
  encI64 m.latestAccess ++ encU32 m.latestAccessNsecs ++ encU16 m.version
    ++ m.blobId ++ [0, 0]

/-- `meta.rs` `MetaV1::new`: version is fixed to 1, the timestamp is
split into seconds and subsecond nanoseconds. -/
def MetaV1.new (blobId : Bytes) (now : Ts) : MetaV1 :=
  { version := 1, blobId := blobId, latestAccess := now.secs,
    latestAccessNsecs := now.nsecs }

/-- `meta.rs` `Meta::from_bytes`: `rkyv::check_archived_root::<MetaV1>`
places the archived root at `len - size_of::<Archived<MetaV1>>` and
validates it.  For a struct whose fields are plain integers and a byte
array, `CheckBytes` is infallible, so the only failure mode is a buffer
shorter than the archived size; no field (in particular not `version`)
is compared against an expected value. -/
def metaFromBytes (b : Bytes) : Except Unit MetaV1 :=
  if 32 ≤ b.length then
    let r := b.drop (b.length - 32)
    .ok { version := decU16 (r.drop 12), blobId := (r.drop 14).take 16,
          latestAccess := decI64 r, latestAccessNsecs := decU32 (r.drop 8) }
  else .error ()

/-- Timestamp of chrono's `DateTime::<Utc>::MIN_UTC`. -/
def chronoMinTs : Int := -8334632851200

/-- Timestamp of chrono's `DateTime::<Utc>::MAX_UTC`. -/
def chronoMaxTs : Int := 8210266876799

/-- chrono's `DateTime::from_timestamp`: defined for seconds within
chrono's representable range and nanoseconds below two seconds (the
upper second allows leap-second representations). -/
def tsFromTimestamp (secs : Int) (nsecs : Nat) : Option Ts :=
  if chronoMinTs ≤ secs ∧ secs ≤ chronoMaxTs ∧ nsecs < 2000000000 then
    some ⟨secs, nsecs⟩
  else none

/-- `meta.rs` `Meta::latest_access`: rebuilds the timestamp, failing on
values `DateTime::from_timestamp` rejects. -/
def MetaV1.latestAccessTs (m : MetaV1) : Option Ts :=
  tsFromTimestamp m.latestAccess m.latestAccessNsecs

/-! ## The case-insensitive no-padding alphanumeric encoding

`encoding.rs` defines a 5-bit `data_encoding` alphabet
`abcdefghijklmnopqrstuvwxyz012345` without padding, translating upper
case to lower case.  Encoding packs the input bytes most-significant
bit first into 5-bit symbols; decoding requires a length a canonical
encoding can produce and zero trailing bits. -/

/-- The value of a byte string read as one big-endian number. -/
def bytesToNat : Bytes → Nat
  | [] => 0
  | b :: bs => b % 256 * 256 ^ bs.length + bytesToNat bs

/-- Big-endian base-`b` digits of `v`, padded to `n` digits. -/
def natToDigits (b : Nat) : Nat → Nat → List Nat
  | 0, _ => []
  | n + 1, v => natToDigits b n (v / b) ++ [v % b]

/-- Symbol for a 5-bit value in the alphabet `a-z` then `0-5`. -/
def icaseSymbol (v : Nat) : Char :=
  if v < 26 then Char.ofNat (97 + v) else Char.ofNat (48 + (v - 26))

/-- 5-bit value of a symbol; upper case letters are translated to lower
case first (`translate_from`/`translate_to` in `encoding.rs`). -/
def icaseSymbolValue (c : Char) : Option Nat :=
  if 'a' ≤ c ∧ c ≤ 'z' then some (c.toNat - 97)
  else if 'A' ≤ c ∧ c ≤ 'Z' then some (c.toNat - 65)
  else if '0' ≤ c ∧ c ≤ '5' then some (c.toNat - 48 + 26)
  else none

/-- `Encoding::encode`: `ceil (8m / 5)` symbols; the bit string of the
input, left-shifted so the final partial symbol is padded with zero
bits. -/
def encodeIcase (bs : Bytes) : String :=
  let m := bs.length
  let n := (8 * m + 4) / 5
  let v := bytesToNat bs * 2 ^ (5 * n - 8 * m)
  String.mk ((natToDigits 32 n v).map icaseSymbol)

/-- `Encoding::decode`: rejects symbols outside the alphabet, lengths no
encoding produces (a trailing group of 5 or more bits) and non-zero
trailing bits. -/
def decodeIcase (s : String) : Option Bytes :=
  match s.toList.mapM icaseSymbolValue with
  | none => none
  | some vals =>
    let n := vals.length
    let bits := 5 * n
    let r := bits % 8
    if r ≥ 5 then none
    else
      let v := vals.foldl (fun a d => a * 32 + d) 0
      if v % 2 ^ r = 0 then some (natToDigits 256 (bits / 8) (v / 2 ^ r))
      else none

/-! ## Storage model

`LocalCache` is generic over the `Storage` trait (flat namespace of
byte streams addressed by `/`-delimited absolute paths, with staged
atomic writes).  We embed a storage as an association list from paths
to contents, a path being its list of segments (the source's
`format!("/a/{b}/{c}")` strings correspond to segment lists
`[a, b, c]`).  A `put`-write-`close` sequence becomes one atomic map
update; `get` of a missing path is the `NotFound` error; `delete` of a
missing path is `NotFound` as well (both back-ends report it so). -/

/-- A storage path, as its list of `/`-separated segments. -/
abbrev SPath := List String

/-- Flat storage state: stored files with their contents. -/
abbrev StorageM := List (SPath × Bytes)

/-- `io::ErrorKind` values distinguished by the embedded code. -/
inductive ErrKind where
  | notFound
  | unexpectedEof
  | invalidData
  | invalidInput
  deriving DecidableEq, Repr

/-- `Storage::get` content lookup (first matching entry). -/
def lookupFile (st : StorageM) (p : SPath) : Option Bytes :=
  match st with
  | [] => none
  | (q, c) :: rest => if q = p then some c else lookupFile rest p

/-- A completed `Storage::put`/`write_all`/`close` sequence: the file
becomes visible atomically under its final path. -/
def putFile (st : StorageM) (p : SPath) (c : Bytes) : StorageM :=
  (p, c) :: st.filter (fun pc => pc.1 ≠ p)

/-- `Storage::delete`: errors with `NotFound` when the path is absent. -/
def deleteFile (st : StorageM) (p : SPath) : Except ErrKind StorageM :=
  match lookupFile st p with
  | some _ => .ok (st.filter (fun pc => pc.1 ≠ p))
  | none => .error .notFound

/-! ## Local cache paths -/

/-- `local.rs` `LocalCache::blob_path`: the encoded blob id split after
its first two characters under `/blob`. -/
def blobPath (id : Bytes) : SPath :=
  let e := encodeIcase id
  ["blob", (e.toList.take 2).asString, (e.toList.drop 2).asString]

/-- `local.rs` `LocalCache::meta_path`: `/meta/<h>/<key>` where `<h>`
is the encoded first byte of `BLAKE3(key)`.  BLAKE3 lives in an
external crate, so the fan-out component is a parameter `hash` of the
embedding; every theorem holds for an arbitrary such function. -/
def metaPath (hash : String → String) (key : String) : SPath :=
  ["meta", hash key, key]

/-- `local.rs` `LocalCache::read_meta`: `Storage::get`, `read_exact`
into a `META_MAX_SIZE` buffer (failing with `UnexpectedEof` when the
file is shorter), then `Meta::from_bytes` with parse failures mapped to
`InvalidData`. -/
def readMeta (st : StorageM) (p : SPath) : Except ErrKind MetaV1 :=
  match lookupFile st p with
  | none => .error .notFound
  | some c =>
    if c.length < META_MAX_SIZE then .error .unexpectedEof
    else
      match metaFromBytes (c.take META_MAX_SIZE) with
      | .ok m => .ok m
      | .error _ => .error .invalidData

/-- `meta.rs` `Meta::set_latest_access`: rewrites the two timestamp
fields of the archived record in place. -/
def MetaV1.setLatestAccess (m : MetaV1) (now : Ts) : MetaV1 :=
  { m with latestAccess := now.secs, latestAccessNsecs := now.nsecs }

/-- `local.rs` `LocalCache::get`: walk the keys left to right; read the
meta record (skipping the key on `NotFound`, surfacing other errors),
rewrite it with the current timestamp via a staged write, then open the
referenced blob, skipping the key when the blob is `NotFound`. -/
def cacheGet (hash : String → String) (now : Ts) (st : StorageM) :
    List String → Except ErrKind (StorageM × Option (String × Bytes))
  | [] => .ok (st, none)
  | key :: keys =>
    match readMeta st (metaPath hash key) with
    | .error e =>
      if e = .notFound then cacheGet hash now st keys else .error e
    | .ok m =>
      let m' := m.setLatestAccess now
      let st' := putFile st (metaPath hash key) m'.toBytes
      match lookupFile st' (blobPath m'.blobId) with
      | some c => .ok (st', some (key, c))
      | none => cacheGet hash now st' keys

/-- `local.rs` `LocalCache::set` followed by writing a byte stream and
`CacheWriter::close`: a fresh blob id names the blob path, and on close
the blob is published first, then one full meta record per key in
order. -/
def cacheSet (hash : String → String) (now : Ts) (id : Bytes)
    (st : StorageM) (keys : List String) (content : Bytes) : StorageM :=
  let st := putFile st (blobPath id) content
  keys.foldl (fun s k => putFile s (metaPath hash k)
    (MetaV1.new id now).toBytes) st

/-! ## Clean (`local.rs` `LocalCache::clean`, lines 154-229)

`clean` enumerates `/blob` and `/meta` two levels deep, aggregates meta
records per referenced blob, and pops a least-recently-used heap until
the age cutoff and the size budget are met, deleting each popped
aggregate's meta files first and then its blob. -/

/-- `chrono::DateTime` strict order (lexicographic). -/
def tsLTb (a b : Ts) : Bool :=
  a.secs < b.secs ∨ (a.secs = b.secs ∧ a.nsecs < b.nsecs)

/-- `now - max_unused_age` (`chrono` subtraction of a normalized
`TimeDelta`, given here as seconds plus nanoseconds `< 10^9`). -/
def tsSub (t d : Ts) : Ts :=
  if d.nsecs ≤ t.nsecs then ⟨t.secs - d.secs, t.nsecs - d.nsecs⟩
  else ⟨t.secs - d.secs - 1, t.nsecs + 1000000000 - d.nsecs⟩

/-- `DateTime::<Utc>::MIN_UTC` as a timestamp. -/
def tsMinUTC : Ts := ⟨chronoMinTs, 0⟩

/-- `u64::MAX`. -/
def U64MAX : Nat := 2 ^ 64 - 1

/-- A file found two levels below the base directory
(`local.rs` `SubdirFile`). -/
structure SubdirFile where
  path : SPath
  subdir : String
  name : String
  size : Nat
  deriving DecidableEq, Repr

/-- Child entry of `dir` contributed by a stored path: its first
segment below `dir` and whether the path ends there (a file) or goes
deeper (a directory). -/
def childOf (dir p : SPath) : Option (String × Bool) :=
  if p.take dir.length = dir then
    match p.drop dir.length with
    | [] => none
    | [name] => some (name, true)
    | name :: _ :: _ => some (name, false)
  else none

/-- Each directory child is listed once (first occurrence); `seen`
accumulates names already emitted. -/
def dedupByNameAux (seen : List String) :
    List (String × Bool × Nat) → List (String × Bool × Nat)
  | [] => []
  | e :: rest =>
    if e.1 ∈ seen then dedupByNameAux seen rest
    else e :: dedupByNameAux (e.1 :: seen) rest

/-- Each directory child is listed once (first occurrence). -/
def dedupByName (l : List (String × Bool × Nat)) :
    List (String × Bool × Nat) :=
  dedupByNameAux [] l

/-- `Storage::list` over the flat embedding: the children of `dir` in
first-occurrence order, with `(name, is-file, size)` (directories list
size 0, as both back-ends report). -/
def listDir (st : StorageM) (dir : SPath) : List (String × Bool × Nat) :=
  dedupByName (st.filterMap (fun pc =>
    (childOf dir pc.1).map (fun nb =>
      (nb.1, nb.2, if nb.2 then pc.2.length else 0))))

/-- `local.rs` `LocalCache::iter_subdir_files` (lines 239-273): list
the base directory, descend into each directory entry (file entries at
depth one are skipped), and collect the files found at depth two
(directory entries at depth two are skipped). -/
def iterSubdirFiles (st : StorageM) (base : String) : List SubdirFile :=
  (listDir st [base]).flatMap (fun e =>
    if e.2.1 then []
    else
      (listDir st [base, e.1]).filterMap (fun f =>
        if f.2.1 then some ⟨[base, e.1, f.1], e.1, f.1, f.2.2⟩ else none))

/-- Failure modes of `clean`: a surfaced I/O error, or the panic of
`blob_id.try_into().unwrap()` on a decoded name that is not 16 bytes. -/
inductive CleanErr where
  | ioErr (e : ErrKind)
  | panicked
  deriving DecidableEq, Repr

/-- `HashMap::insert` on the `blob_sizes` map (replaces). -/
def upsertSize : List (Bytes × Nat) → Bytes → Nat → List (Bytes × Nat)
  | [], id, sz => [(id, sz)]
  | (i, s) :: rest, id, sz =>
    if i = id then (i, sz) :: rest else (i, s) :: upsertSize rest id sz

/-- `HashMap::get` on `blob_sizes`. -/
def lookupSize : List (Bytes × Nat) → Bytes → Option Nat
  | [], _ => none
  | (i, s) :: rest, id => if i = id then some s else lookupSize rest id

/-- `clean` step 1 (lines 163-172): enumerate `/blob` two levels deep;
file names that fail to decode are ignored; a decoded id is forced into
a 16-byte `BlobId` by `try_into().unwrap()`, which panics on any other
length. -/
def collectBlobSizes (st : StorageM) : Except CleanErr (List (Bytes × Nat)) :=
  (iterSubdirFiles st "blob").foldlM (fun acc f =>
    match decodeIcase (f.subdir ++ f.name) with
    | some id =>
      if id.length = 16 then .ok (upsertSize acc id f.size)
      else .error .panicked
    | none => .ok acc) []

/-- The `Blob` aggregate of `clean` (latest access over all keys, blob
size, blob id, referencing key names). -/
structure BlobAgg where
  latestAccess : Ts
  size : Nat
  blobId : Bytes
  keys : List String
  deriving DecidableEq, Repr

/-- The `blobs.entry(..).or_insert_with(..)` upsert of `clean` step 2:
insert a fresh aggregate if absent, then push the key name and raise
`latest_access` to the maximum. -/
def upsertAgg : List BlobAgg → Bytes → Ts → Nat → String → List BlobAgg
  | [], id, la, sz, key => [⟨la, sz, id, [key]⟩]
  | a :: rest, id, la, sz, key =>
    if a.blobId = id then
      { a with
        keys := a.keys ++ [key]
        latestAccess :=
          (if tsLEb a.latestAccess la then la else a.latestAccess) } :: rest
    else a :: upsertAgg rest id la sz key

/-- `clean` step 2 (lines 183-199): enumerate `/meta` two levels deep,
read each meta file (read errors abort the pass; a timestamp
`DateTime::from_timestamp` rejects aborts with `InvalidData`), and
aggregate the records whose blob id appears in `blob_sizes`. -/
def collectAggs (st : StorageM)
    (blobSizes : List (Bytes × Nat)) : Except CleanErr (List BlobAgg) :=
  (iterSubdirFiles st "meta").foldlM (fun aggs f =>
    match readMeta st f.path with
    | .error e => .error (.ioErr e)
    | .ok m =>
      match m.latestAccessTs with
      | none => .error (.ioErr .invalidData)
      | some la =>
        match lookupSize blobSizes m.blobId with
        | some sz => .ok (upsertAgg aggs m.blobId la sz f.name)
        | none => .ok aggs) []

/-- `blob_size_sum` (line 201). -/
def sumSizes (l : List BlobAgg) : Nat := (l.map (fun a => a.size)).sum

/-- Lexicographic strict order on byte strings (`[u8; 16]` `Ord`). -/
def bytesLexLT : Bytes → Bytes → Bool
  | _, [] => false
  | [], _ :: _ => true
  | a :: as, b :: bs => if a < b then true else if a = b then bytesLexLT as bs else false

/-- Pop priority of the `BinaryHeap<Blob>`: the heap pops the maximum
by the derived lexicographic `Ord` on
`(Reverse(latest_access), size, blob_id, keys)`, i.e. oldest
`latest_access` first, ties by larger size, then larger blob id.  The
`keys` component never decides because aggregates in the map have
distinct blob ids. -/
def popBefore (a b : BlobAgg) : Bool :=
  tsLTb a.latestAccess b.latestAccess ∨
    (a.latestAccess = b.latestAccess ∧
      (b.size < a.size ∨ (a.size = b.size ∧ bytesLexLT b.blobId a.blobId)))

/-- Insertion into pop order (earlier = popped first). -/
def insertPop (a : BlobAgg) : List BlobAgg → List BlobAgg
  | [] => [a]
  | b :: rest => if popBefore b a then b :: insertPop a rest else a :: b :: rest

/-- The heap's pop sequence, as a sorted list. -/
def sortPop : List BlobAgg → List BlobAgg
  | [] => []
  | a :: rest => insertPop a (sortPop rest)

/-- The paths `clean` deletes for one popped aggregate, in deletion
order: every meta path first, then the blob path (lines 221-224). -/
def aggPaths (hash : String → String) (a : BlobAgg) : List SPath :=
  a.keys.map (metaPath hash) ++ [blobPath a.blobId]

/-- Deletion of a popped aggregate's meta files (lines 221-223). -/
def deleteMetas (hash : String → String) :
    List String → StorageM → Except ErrKind StorageM
  | [], st => .ok st
  | k :: ks, st =>
    match deleteFile st (metaPath hash k) with
    | .error e => .error e
    | .ok st' => deleteMetas hash ks st'

/-- `clean` steps 4-5 (lines 202-226): pop until the oldest remaining
aggregate is no older than the cutoff AND the running size total fits
the budget; each pop deletes the aggregate's meta files, then its blob,
and subtracts its size from the total. -/
def cleanLoop (hash : String → String) (cutoffB : Ts) (maxB : Nat) :
    List BlobAgg → Nat → StorageM → Except CleanErr StorageM
  | [], _, st => .ok st
  | a :: rest, total, st =>
    if tsLEb cutoffB a.latestAccess ∧ total ≤ maxB then .ok st
    else
      match deleteMetas hash a.keys st with
      | .error e => .error (.ioErr e)
      | .ok st' =>
        match deleteFile st' (blobPath a.blobId) with
        | .error e => .error (.ioErr e)
        | .ok st'' => cleanLoop hash cutoffB maxB rest (total - a.size) st''

/-- `local.rs` `LocalCache::clean` (lines 154-229): a no-op when both
limits are unset; otherwise scan, aggregate, and evict.  The cutoff is
`now - max_unused_age` when the age limit is set (`MIN_UTC` otherwise);
the budget is `max_blob_size_sum` when set (`u64::MAX` otherwise). -/
def clean (hash : String → String) (now : Ts) (maxUnusedAge : Option Ts)
    (maxBlobSizeSum : Option Nat) (st : StorageM) :
    Except CleanErr StorageM :=
  if maxUnusedAge = none ∧ maxBlobSizeSum = none then .ok st
  else
    match collectBlobSizes st with
    | .error e => .error e
    | .ok blobSizes =>
      match collectAggs st blobSizes with
      | .error e => .error e
      | .ok aggs =>
        cleanLoop hash
          (match maxUnusedAge with
           | some d => tsSub now d
           | none => tsMinUTC)
          (match maxBlobSizeSum with
           | some m => m
           | none => U64MAX)
          (sortPop aggs) (sumSizes aggs) st

/-- The pure control skeleton of `cleanLoop`: which aggregates are
popped and which are kept. -/
def evictSplit (cutoffB : Ts) (maxB : Nat) :
    List BlobAgg → Nat → (List BlobAgg × List BlobAgg)
  | [], _ => ([], [])
  | a :: rest, total =>
    if tsLEb cutoffB a.latestAccess ∧ total ≤ maxB then ([], a :: rest)
    else
      ((evictSplit cutoffB maxB rest (total - a.size)).1.cons a,
        (evictSplit cutoffB maxB rest (total - a.size)).2)

/-- Sequential deletion, as `clean` performs it. -/
def removePaths (ps : List SPath) (st : StorageM) : StorageM :=
  ps.foldl (fun s p => s.filter (fun pc => pc.1 ≠ p)) st

/-! ## Claim C2

Specification-side description of the `get` walk (second definition,
written from the claim's words, to be compared with `cacheGet`). -/

/-- How a single key resolves against a fixed storage state. -/
inductive KeyStatus where
  | absent
  | truncated
  | corrupt
  | dangling
  | resolves (content : Bytes)
  deriving DecidableEq, Repr

/-- Spec-side status of one key: meta file missing, shorter than a
record, unparseable, referencing a missing blob, or resolving to blob
content. -/
def specKeyStatus (hash : String → String) (st : StorageM) (k : String) :
    KeyStatus :=
  match lookupFile st (metaPath hash k) with
  | none => .absent
  | some c =>
    if c.length < META_MAX_SIZE then .truncated
    else
      match metaFromBytes (c.take META_MAX_SIZE) with
      | .error _ => .corrupt
      | .ok m =>
        match lookupFile st (blobPath m.blobId) with
        | none => .dangling
        | some content => .resolves content

/-- Observable outcome of a `get` call. -/
inductive GetOutcome where
  | hit (key : String) (content : Bytes)
  | miss
  | failed (e : ErrKind)
  deriving DecidableEq, Repr

/-- Forget the final storage state of a `get` result. -/
def outcomeOf (r : Except ErrKind (StorageM × Option (String × Bytes))) :
    GetOutcome :=
  match r with
  | .error e => .failed e
  | .ok (_, none) => .miss
  | .ok (_, some (k, c)) => .hit k c

/-- Spec-side walk: first key that resolves wins; missing metas and
dangling references are skipped; a truncated meta surfaces
`UnexpectedEof`, an unparseable one `InvalidData`; `miss` iff all keys
fail to resolve. -/
def specGet (hash : String → String) (st : StorageM) :
    List String → GetOutcome
  | [] => .miss
  | k :: ks =>
    match specKeyStatus hash st k with
    | .absent => specGet hash st ks
    | .truncated => .failed .unexpectedEof
    | .corrupt => .failed .invalidData
    | .dangling => specGet hash st ks
    | .resolves c => .hit k c

/-! ## Claim C7: HTTP status-line parsing (`http.rs` `HttpStatus::new`) -/

/-- Possible outcomes of `HttpStatus::new`: a parsed status, an
`invalid_data` error, or a panic from an out-of-bounds byte index. -/
inductive StatusParse where
  | ok (line : List Char)
  | invalid (msg : String)
  | panicOOB
  deriving DecidableEq, Repr

/-- The `HTTP_VERSION` constant, as characters (inputs considered here
are ASCII, where byte indexing and character indexing agree). -/
def httpVersionChars : List Char := "HTTP/1.1".toList

/-- `http.rs` `HttpStatus::new` (lines 180-194): `starts_with` check,
then unchecked byte indexing at positions 8 and 12 (`||`
short-circuits, so index 12 is touched only when byte 8 is a space),
then the three code characters (slice 9..12) must be ASCII digits.
Indexing past the end of the string panics. -/
def httpStatusNew (line : List Char) : StatusParse :=
  if ¬ httpVersionChars.isPrefixOf line then .invalid "unsupported HTTP version"
  else
    match line.get? 8 with
    | none => .panicOOB
    | some c8 =>
      if c8 ≠ ' ' then .invalid "malformed status line"
      else
        match line.get? 12 with
        | none => .panicOOB
        | some c12 =>
          if c12 ≠ ' ' then .invalid "malformed status line"
          else if ((line.drop 9).take 3).any (fun c => ¬ c.isDigit) then
            .invalid "invalid HTTP status code"
          else .ok line

/-! ## Claim C10: `RemoteCache::get` with an empty key list -/

/-- What `RemoteCache::get` does before any I/O. -/
inductive RemoteGetStep where
  | missWithoutRequest
  | sendsRequest (query : List (String × String))
  deriving DecidableEq, Repr

/-- `remote.rs` `RemoteCache::get` (lines 112-118): an empty key list
returns `Ok(None)` immediately; otherwise one `key` query pair is
appended per key and the GET request is issued. -/
def remoteGetStep (keys : List String) : RemoteGetStep :=
  match keys with
  | [] => .missWithoutRequest
  | _ => .sendsRequest (keys.map (fun k => ("key", k)))

/-! ## Claim C9: `btdt restore` exit codes (`btdt-cli/src/main.rs`) -/

/-- `CacheEntriesRef::keys` (lines 131-138): empty components of the
comma-separated key list are dropped. -/
def cliKeys (keys : List String) : List String :=
  keys.filter (fun k => !k.isEmpty)

/-- The key `Pipeline::restore` reports: the first key of the filtered
list that is present in the cache (`avail` abstracts the cache
contents; `LocalCache::get`/`RemoteCache::get` return the first listed
key that resolves). -/
def restoredKey (avail : String → Bool) (keys : List String) :
    Option String :=
  (cliKeys keys).find? avail

/-- `main` `Commands::Restore` arm (lines 237-256): exit 4 on a miss;
on a hit, exit 3 unless `--success-rc-on-any-key` was given or the
restored key equals `keys.first()` of the RAW key list. -/
def restoreExitCode (successRcOnAnyKey : Bool) (keys : List String)
    (avail : String → Bool) : Nat :=
  match restoredKey avail keys with
  | some restored =>
    if successRcOnAnyKey = false ∧ some restored ≠ keys.head? then 3 else 0
  | none => 4

/-! ## Claim C8: `FilesystemStorage` path handling

Paths are embedded at the character level (the source works on `&str`
and `PathBuf`); a path component is a `List Char`. -/

/-- A filesystem path component. -/
abbrev FsSeg := List Char

/-- The parent-directory component `..`. -/
def dotdot : FsSeg := ['.', '.']

/-- `starts_with('/')` of the source. -/
def startsWithSlash : List Char → Bool
  | '/' :: _ => true
  | _ => false

/-- Split a character string at `/`. -/
def splitSlashAux : List Char → List Char → List FsSeg
  | acc, [] => [acc.reverse]
  | acc, c :: rest =>
    if c = '/' then acc.reverse :: splitSlashAux [] rest
    else splitSlashAux (c :: acc) rest

/-- `Path::components`-style normalization of the part after the
leading slash: split at `/`, dropping empty components and `.`. -/
def pathComponents (s : List Char) : List FsSeg :=
  (splitSlashAux [] s).filter (fun c => !(c == [] || c == ['.']))

/-- `filesystem.rs` `FilesystemStorage::canonical_path` (lines
149-159): the path must start with `/` (else `InvalidInput`); the
remainder is joined onto the root with no further validation. -/
def canonicalPath (root : List FsSeg) (path : List Char) :
    Except ErrKind (List FsSeg) :=
  if startsWithSlash path then .ok (root ++ pathComponents (path.drop 1))
  else .error .invalidInput

/-- `filesystem.rs` `get` (lines 89-91; likewise `delete`,
`exists_file`, `list`): only the `canonical_path` validation is
applied before the filesystem call. -/
def fsGetPath (root : List FsSeg) (path : List Char) :
    Except ErrKind (List FsSeg) :=
  canonicalPath root path

/-- `filesystem.rs` `put` (lines 126-146): `canonical_path`, then —
only when the root exists — the components of the canonical path's
parent directory are walked and any `..` component is rejected with
`InvalidInput`. -/
def fsPutPath (rootExists : Bool) (root : List FsSeg) (path : List Char) :
    Except ErrKind (List FsSeg) :=
  match canonicalPath root path with
  | .error e => .error e
  | .ok canonical =>
    if rootExists = true ∧ dotdot ∈ canonical.dropLast then
      .error .invalidInput
    else .ok canonical

/-- Resolve `..` components against the directory tree (`none` when a
path would climb above the filesystem root). -/
def resolveAux : List FsSeg → List FsSeg → Option (List FsSeg)
  | acc, [] => some acc.reverse
  | acc, s :: rest =>
    if s = dotdot then
      match acc with
      | [] => none
      | _ :: acc' => resolveAux acc' rest
    else resolveAux (s :: acc) rest

/-- Where a segment path actually points once `..` is resolved. -/
def resolvePath (segs : List FsSeg) : Option (List FsSeg) :=
  resolveAux [] segs

/-- A canonical path escapes the root when its resolution does not stay
below the root's own resolution. -/
def escapesRoot (root canonical : List FsSeg) : Bool :=
  match resolvePath root, resolvePath canonical with
  | some r, some c => !(r.isPrefixOf c)
  | _, _ => true

/-! ## Claim C6: server `GET /api/caches/{id}` -/

/-- An HTTP response of the server: status, response headers, body. -/
structure ServerResponse where
  status : Nat
  headers : List (String × String)
  body : Option Bytes
  deriving DecidableEq, Repr

/-- `get_from_cache.rs` `GetFromCacheResponse` and its
`From<CacheHit>` impl (lines 15-38): the hit conversion wraps only
`hit.reader` into the 200 response body; `hit.key` and the size hint
are discarded and no variant carries response headers. -/
def getFromCacheResponse (r : Option (String × Bytes)) : ServerResponse :=
  match r with
  | none => ⟨204, [], none⟩
  | some (_, c) => ⟨200, [], some c⟩

/-- Assoc lookup of a cache by id (`self.caches.get(&cache_id.0)`). -/
def lookupCache : List (String × StorageM) → String → Option StorageM
  | [], _ => none
  | (i, st) :: rest, cid => if i = cid then some st else lookupCache rest cid

/-- `api.rs` `Api::get_from_cache` (lines 107-127), for an authorized
request: unknown cache id yields 404; otherwise `Cache::get` runs (the
local-cache embedding `cacheGet`), a miss yields 204 and a hit the 200
conversion above; cache errors become the 500 path. -/
def apiGetFromCache (hash : String → String) (now : Ts)
    (caches : List (String × StorageM)) (cacheId : String)
    (keys : List String) : Except ErrKind ServerResponse :=
  match lookupCache caches cacheId with
  | none => .ok ⟨404, [], none⟩
  | some st =>
    match cacheGet hash now st keys with
    | .error e => .error e
    | .ok (_, r) => .ok (getFromCacheResponse r)

/-! # Theorems -/

theorem leBytes_length (w n : Nat) : (leBytes w n).length = w := by
  induction w generalizing n with
  | zero => rfl
  | succ w ih => simp [leBytes, ih]

theorem encI64_length (i : Int) : (encI64 i).length = 8 := leBytes_length 8 _

theorem encU32_length (n : Nat) : (encU32 n).length = 4 := leBytes_length 4 _

theorem encU16_length (n : Nat) : (encU16 n).length = 2 := leBytes_length 2 _

theorem metaToBytes_length (m : MetaV1) (h : m.blobId.length = 16) :
    m.toBytes.length = 32 := by
  simp [MetaV1.toBytes, encI64_length, encU32_length, encU16_length, h]

theorem lookupFile_putFile_self (st : StorageM) (p : SPath) (c : Bytes) :
    lookupFile (putFile st p c) p = some c := by
  simp [putFile, lookupFile]

theorem lookupFile_filter_ne (st : StorageM) (p q : SPath) (h : q ≠ p) :
    lookupFile (st.filter (fun pc => pc.1 ≠ p)) q = lookupFile st q := by
  induction st with
  | nil => rfl
  | cons pc rest ih =>
    by_cases hp : pc.1 = p
    · have hq : pc.1 ≠ q := fun hc => h (hc ▸ hp)
      simpa [lookupFile, List.filter_cons, hp, hq, h, Ne.symm h] using ih
    · by_cases hq : pc.1 = q
      · simp [lookupFile, List.filter_cons, hp, hq, h, Ne.symm h]
      · simpa [lookupFile, List.filter_cons, hp, hq] using ih

theorem lookupFile_putFile_ne (st : StorageM) (p q : SPath) (c : Bytes)
    (h : q ≠ p) : lookupFile (putFile st p c) q = lookupFile st q := by
  simp only [putFile, lookupFile, if_neg (Ne.symm h)]
  exact lookupFile_filter_ne st p q h

/-! ## Helper lemmas about the meta byte layout and the cache paths -/

theorem toBytes_drop14 (m : MetaV1) : m.toBytes.drop 14 = m.blobId ++ [0, 0] := by
  have hsplit : m.toBytes =
      (encI64 m.latestAccess ++ encU32 m.latestAccessNsecs ++ encU16 m.version)
        ++ (m.blobId ++ [0, 0]) := by
    simp [MetaV1.toBytes]
  have hl : (encI64 m.latestAccess ++ encU32 m.latestAccessNsecs
      ++ encU16 m.version).length = 14 := by
    simp [encI64_length, encU32_length, encU16_length]
  rw [hsplit, ← hl, List.drop_left]

theorem metaFromBytes_toBytes_blobId (m : MetaV1) (h : m.blobId.length = 16) :
    ∃ m', metaFromBytes m.toBytes = .ok m' ∧ m'.blobId = m.blobId := by
  have hlen := metaToBytes_length m h
  have h32 : (32 : Nat) ≤ m.toBytes.length := by omega
  have hsub : m.toBytes.length - 32 = 0 := by omega
  unfold metaFromBytes
  rw [if_pos h32, hsub]
  simp only [List.drop_zero]
  refine ⟨_, rfl, ?_⟩
  show (m.toBytes.drop 14).take 16 = m.blobId
  rw [toBytes_drop14, ← h, List.take_left]

theorem metaPath_ne_blobPath (hash : String → String) (k : String)
    (id : Bytes) : metaPath hash k ≠ blobPath id := by
  simp only [metaPath, blobPath]
  intro hc
  have : "meta" = "blob" := by injection hc
  simp at this

/-- Value of a fold of constant-content puts at a path one of the keys
maps to. -/
theorem lookup_foldl_put_of_ne (f : String → SPath) (v : Bytes)
    (l : List String) (s : StorageM) (p : SPath)
    (h : ∀ k ∈ l, f k ≠ p) :
    lookupFile (l.foldl (fun s k => putFile s (f k) v) s) p =
      lookupFile s p := by
  induction l generalizing s with
  | nil => rfl
  | cons k rest ih =>
    rw [List.foldl_cons, ih _ (fun k' hk' => h k' (List.mem_cons_of_mem _ hk')),
      lookupFile_putFile_ne _ _ _ _ (fun hc => h k (List.mem_cons_self _ _) hc.symm)]

theorem lookup_foldl_put_mem (f : String → SPath) (v : Bytes)
    (l : List String) (s : StorageM) (p : SPath)
    (h : ∃ k ∈ l, f k = p) :
    lookupFile (l.foldl (fun s k => putFile s (f k) v) s) p = some v := by
  induction l generalizing s with
  | nil => simp at h
  | cons k rest ih =>
    rw [List.foldl_cons]
    by_cases hr : ∃ k' ∈ rest, f k' = p
    · exact ih _ hr
    · obtain ⟨k₀, hk₀, hfk₀⟩ := h
      have hk : k₀ = k := by
        rcases List.mem_cons.mp hk₀ with h1 | h1
        · exact h1
        · exact absurd ⟨k₀, h1, hfk₀⟩ hr
      subst hk
      rw [lookup_foldl_put_of_ne _ _ _ _ _
        (fun k' hk' hc => hr ⟨k', hk', hc⟩), ← hfk₀]
      exact lookupFile_putFile_self _ _ _

/-- C1 helper: after `set(K, B)` closed successfully, every key of `K`
has its meta record stored, and the blob holds `B`. -/
theorem cacheSet_lookup_meta (hash : String → String) (tset : Ts)
    (id : Bytes) (st : StorageM) (keys : List String) (content : Bytes)
    (k : String) (hk : k ∈ keys) :
    lookupFile (cacheSet hash tset id st keys content) (metaPath hash k) =
      some (MetaV1.new id tset).toBytes := by
  unfold cacheSet
  exact lookup_foldl_put_mem _ _ _ _ _ ⟨k, hk, rfl⟩

theorem cacheSet_lookup_blob (hash : String → String) (tset : Ts)
    (id : Bytes) (st : StorageM) (keys : List String) (content : Bytes) :
    lookupFile (cacheSet hash tset id st keys content) (blobPath id) =
      some content := by
  unfold cacheSet
  rw [lookup_foldl_put_of_ne _ _ _ _ _
    (fun k _ => metaPath_ne_blobPath hash k id)]
  exact lookupFile_putFile_self _ _ _

/-! ## Claim C1 -/

/-- C1: for every key set `K` and byte stream `B`, after `set(K)`
receives `B` and its writer closes successfully, `get([k])` returns a
hit for each `k ∈ K` whose reader yields exactly `B`.  (`hash` is the
BLAKE3-based fan-out component of the meta path; `id` the freshly drawn
16-byte blob id.) -/
theorem set_then_get_roundtrip (hash : String → String) (tset tget : Ts)
    (id : Bytes) (st : StorageM) (keys : List String) (content : Bytes)
    (k : String) (hk : k ∈ keys) (hid : id.length = 16) :
    ∃ st', cacheGet hash tget (cacheSet hash tset id st keys content) [k] =
      .ok (st', some (k, content)) := by
  have hmeta := cacheSet_lookup_meta hash tset id st keys content k hk
  have hblob := cacheSet_lookup_blob hash tset id st keys content
  have hid' : (MetaV1.new id tset).blobId.length = 16 := hid
  have hlen : (MetaV1.new id tset).toBytes.length = 32 :=
    metaToBytes_length _ hid'
  obtain ⟨mP, hparse, hPid⟩ :=
    metaFromBytes_toBytes_blobId (MetaV1.new id tset) hid'
  have hnlt : ¬ ((MetaV1.new id tset).toBytes.length < META_MAX_SIZE) := by
    rw [hlen]; simp [META_MAX_SIZE]
  have htake : (MetaV1.new id tset).toBytes.take META_MAX_SIZE =
      (MetaV1.new id tset).toBytes := by
    show (MetaV1.new id tset).toBytes.take 32 = _
    rw [← hlen]
    exact List.take_length _
  have hread : readMeta (cacheSet hash tset id st keys content)
      (metaPath hash k) = .ok mP := by
    unfold readMeta
    rw [hmeta]
    simp only [if_neg hnlt, htake, hparse]
  have hsla : (mP.setLatestAccess tget).blobId = id := by
    simpa [MetaV1.setLatestAccess] using hPid
  have hlook : lookupFile
      (putFile (cacheSet hash tset id st keys content) (metaPath hash k)
        ((mP.setLatestAccess tget).toBytes))
      (blobPath (mP.setLatestAccess tget).blobId) = some content := by
    rw [hsla, lookupFile_putFile_ne _ _ _ _
      (Ne.symm (metaPath_ne_blobPath hash k id))]
    exact hblob
  refine ⟨putFile (cacheSet hash tset id st keys content) (metaPath hash k)
    ((mP.setLatestAccess tget).toBytes), ?_⟩
  unfold cacheGet
  simp only [hread, hlook]

/-- Witness for C1 at a concrete cache state. -/
theorem set_then_get_roundtrip_witness :
    "k1" ∈ ["k0", "k1"] ∧ (List.replicate 16 0 : Bytes).length = 16 ∧
      ∃ st', cacheGet (fun _ => "aa") ⟨5, 0⟩
        (cacheSet (fun _ => "aa") ⟨3, 0⟩ (List.replicate 16 0) []
          ["k0", "k1"] [104, 105]) ["k1"] = .ok (st', some ("k1", [104, 105])) :=
  ⟨by decide, by decide,
    set_then_get_roundtrip (fun _ => "aa") ⟨3, 0⟩ ⟨5, 0⟩
      (List.replicate 16 0) [] ["k0", "k1"] [104, 105] "k1"
      (by decide) (by decide)⟩

/-! ## Claim C4 -/

/-- C4 (amended): the serialized meta record produced by `Meta::new`
has the fixed length `META_MAX_SIZE = 32`: 2-byte version, 16-byte blob
id, 8-byte seconds and 4-byte nanoseconds (30 bytes of fields) plus two
bytes of alignment padding. -/
theorem meta_new_serialized_size (id : Bytes) (now : Ts)
    (h : id.length = 16) :
    ((MetaV1.new id now).toBytes).length = META_MAX_SIZE :=
  metaToBytes_length _ h

/-- Witness for the amended C4 at a concrete record. -/
theorem meta_new_serialized_size_witness :
    (List.replicate 16 0 : Bytes).length = 16 ∧
      ((MetaV1.new (List.replicate 16 0) ⟨0, 0⟩).toBytes).length =
        META_MAX_SIZE :=
  ⟨by decide, meta_new_serialized_size (List.replicate 16 0) ⟨0, 0⟩ (by decide)⟩

/-- C4 counterexample: the serialized length of a concrete meta record
is 32, not 40 as the claim states. -/
theorem meta_serialized_size_ne_40 :
    ((MetaV1.new (List.replicate 16 0) ⟨0, 0⟩).toBytes).length = 32 ∧
      (32 : Nat) ≠ 40 := by
  constructor
  · rfl
  · decide

/-! ## Claim C5 -/

/-- C5 (amended): `Meta::from_bytes` never inspects the schema-version
field; it succeeds on every buffer of at least the archived size (32
bytes), whatever the version field holds. -/
theorem metaFromBytes_ok_of_length (b : Bytes) (h : 32 ≤ b.length) :
    (metaFromBytes b).isOk = true := by
  unfold metaFromBytes
  rw [if_pos h]
  rfl

/-- Witness for the amended C5 at a concrete buffer. -/
theorem metaFromBytes_ok_of_length_witness :
    32 ≤ (List.replicate 32 0 : Bytes).length ∧
      (metaFromBytes (List.replicate 32 0)).isOk = true :=
  ⟨by decide, metaFromBytes_ok_of_length (List.replicate 32 0) (by decide)⟩

/-- C5 counterexample: a serialized record whose version field holds 2
(an unknown schema version) is parsed successfully by
`Meta::from_bytes`, contradicting the claim that such inputs fail. -/
theorem fromBytes_accepts_unknown_version :
    metaFromBytes (MetaV1.toBytes ⟨2, List.replicate 16 0, 0, 0⟩) =
      .ok ⟨2, List.replicate 16 0, 0, 0⟩ := by
  rfl

theorem metaFromBytes_blobId_length (b : Bytes) (m : MetaV1)
    (h : metaFromBytes b = .ok m) : m.blobId.length = 16 := by
  unfold metaFromBytes at h
  by_cases hb : 32 ≤ b.length
  · simp only [if_pos hb, Except.ok.injEq] at h
    subst h
    simp only [List.length_take, List.length_drop]
    omega
  · simp only [if_neg hb] at h
    cases h

theorem readMeta_ok_inv (st : StorageM) (p : SPath) (m : MetaV1)
    (h : readMeta st p = .ok m) :
    ∃ c, lookupFile st p = some c ∧ ¬ c.length < META_MAX_SIZE ∧
      metaFromBytes (c.take META_MAX_SIZE) = .ok m := by
  unfold readMeta at h
  cases hlk : lookupFile st p with
  | none => simp only [hlk] at h; exact Except.noConfusion h
  | some c =>
    simp only [hlk] at h
    by_cases hl : c.length < META_MAX_SIZE
    · simp only [if_pos hl] at h
      exact Except.noConfusion h
    · simp only [if_neg hl] at h
      cases hp : metaFromBytes (c.take META_MAX_SIZE) with
      | ok m' =>
        simp only [hp, Except.ok.injEq] at h
        subst h
        exact ⟨c, rfl, hl, hp⟩
      | error u =>
        simp only [hp] at h
        exact Except.noConfusion h

theorem readMeta_error_inv (st : StorageM) (p : SPath) (e : ErrKind)
    (h : readMeta st p = .error e) :
    (e = .notFound ∧ lookupFile st p = none) ∨
    (e = .unexpectedEof ∧
      ∃ c, lookupFile st p = some c ∧ c.length < META_MAX_SIZE) ∨
    (e = .invalidData ∧
      ∃ c, lookupFile st p = some c ∧ ¬ c.length < META_MAX_SIZE ∧
        ∃ u, metaFromBytes (c.take META_MAX_SIZE) = .error u) := by
  unfold readMeta at h
  cases hlk : lookupFile st p with
  | none =>
    simp only [hlk, Except.error.injEq] at h
    exact Or.inl ⟨h.symm, rfl⟩
  | some c =>
    simp only [hlk] at h
    by_cases hl : c.length < META_MAX_SIZE
    · simp only [if_pos hl, Except.error.injEq] at h
      exact Or.inr (Or.inl ⟨h.symm, c, rfl, hl⟩)
    · simp only [if_neg hl] at h
      cases hp : metaFromBytes (c.take META_MAX_SIZE) with
      | ok m' =>
        simp only [hp] at h
        exact Except.noConfusion h
      | error u =>
        simp only [hp, Except.error.injEq] at h
        exact Or.inr (Or.inr ⟨h.symm, c, rfl, hl, u, hp⟩)

theorem specGet_congr (hash : String → String) (st st' : StorageM)
    (h : ∀ k, specKeyStatus hash st' k = specKeyStatus hash st k) :
    ∀ ks, specGet hash st' ks = specGet hash st ks := by
  intro ks
  induction ks with
  | nil => rfl
  | cons k ks ih => simp only [specGet, h k, ih]

theorem specKeyStatus_putMeta (hash : String → String) (st : StorageM)
    (key : String) (m : MetaV1) (now : Ts)
    (hread : readMeta st (metaPath hash key) = .ok m) (k₂ : String) :
    specKeyStatus hash
      (putFile st (metaPath hash key) ((m.setLatestAccess now).toBytes)) k₂ =
      specKeyStatus hash st k₂ := by
  have hblobs : ∀ id₂ : Bytes,
      lookupFile (putFile st (metaPath hash key)
        ((m.setLatestAccess now).toBytes)) (blobPath id₂) =
      lookupFile st (blobPath id₂) := fun id₂ =>
    lookupFile_putFile_ne _ _ _ _ (Ne.symm (metaPath_ne_blobPath hash key id₂))
  by_cases hk : metaPath hash k₂ = metaPath hash key
  · -- the rewritten meta itself: same blob id, full length, parses back
    obtain ⟨c, hc, hnl, hparse⟩ := readMeta_ok_inv st (metaPath hash key) m hread
    have hmlen : m.blobId.length = 16 :=
      metaFromBytes_blobId_length _ _ hparse
    have hmlen' : ((m.setLatestAccess now)).blobId.length = 16 := by
      simpa [MetaV1.setLatestAccess] using hmlen
    have hnewlen : ((m.setLatestAccess now).toBytes).length = 32 :=
      metaToBytes_length _ hmlen'
    obtain ⟨m₂, hp₂, hid₂⟩ :=
      metaFromBytes_toBytes_blobId (m.setLatestAccess now) hmlen'
    have htk : ((m.setLatestAccess now).toBytes).take META_MAX_SIZE =
        (m.setLatestAccess now).toBytes := by
      show ((m.setLatestAccess now).toBytes).take 32 = _
      rw [← hnewlen]; exact List.take_length _
    have hid₂' : m₂.blobId = m.blobId := by
      rw [hid₂]; simp [MetaV1.setLatestAccess]
    have hnl' : ¬ ((m.setLatestAccess now).toBytes.length < META_MAX_SIZE) := by
      rw [hnewlen]; simp [META_MAX_SIZE]
    unfold specKeyStatus
    rw [hk, lookupFile_putFile_self]
    simp only [hc, if_neg hnl', if_neg hnl, htk, hp₂, hparse, hid₂', hblobs]
  · unfold specKeyStatus
    rw [lookupFile_putFile_ne _ _ _ _ hk]
    cases hlk : lookupFile st (metaPath hash k₂) with
    | none => rfl
    | some c =>
      by_cases hl : c.length < META_MAX_SIZE
      · simp only [if_pos hl]
      · simp only [if_neg hl]
        cases hp : metaFromBytes (c.take META_MAX_SIZE) with
        | error e => simp only [hp]
        | ok m₂ => simp only [hp, hblobs m₂.blobId]

/-- C2 (amended): `get` walks the keys left to right and returns the
first key whose meta record exists, is full length, parses, and
resolves to an existing blob; missing metas and missing blobs are
skipped; a truncated meta record surfaces an `UnexpectedEof` error (a
parse failure would surface `InvalidData`, but every full-length record
parses); the result is a miss if and only if every key fails to
resolve. -/
theorem cacheGet_refines_specGet (hash : String → String) (now : Ts)
    (st : StorageM) (keys : List String) :
    outcomeOf (cacheGet hash now st keys) = specGet hash st keys := by
  induction keys generalizing st with
  | nil => rfl
  | cons key ks ih =>
    unfold cacheGet specGet
    cases hrm : readMeta st (metaPath hash key) with
    | error e =>
      rcases readMeta_error_inv st (metaPath hash key) e hrm with
        ⟨he, hlk⟩ | ⟨he, c, hlk, hl⟩ | ⟨he, c, hlk, hl, u, hp⟩
      · subst he
        have hstat : specKeyStatus hash st key = .absent := by
          unfold specKeyStatus
          simp only [hlk]
        simp only [hstat, if_pos rfl]
        exact ih st
      · subst he
        have hstat : specKeyStatus hash st key = .truncated := by
          unfold specKeyStatus
          simp only [hlk, if_pos hl]
        simp only [hstat]
        rfl
      · subst he
        have hstat : specKeyStatus hash st key = .corrupt := by
          unfold specKeyStatus
          simp only [hlk, if_neg hl, hp]
        simp only [hstat]
        rfl
    | ok m =>
      obtain ⟨c, hc, hnl, hparse⟩ :=
        readMeta_ok_inv st (metaPath hash key) m hrm
      have hstat : specKeyStatus hash st key =
          match lookupFile st (blobPath m.blobId) with
          | none => .dangling
          | some content => .resolves content := by
        unfold specKeyStatus
        simp only [hc, if_neg hnl, hparse]
      have hblobeq : lookupFile
          (putFile st (metaPath hash key) ((m.setLatestAccess now).toBytes))
          (blobPath (m.setLatestAccess now).blobId) =
          lookupFile st (blobPath m.blobId) := by
        have hsl : (m.setLatestAccess now).blobId = m.blobId := by
          simp [MetaV1.setLatestAccess]
        rw [hsl]
        exact lookupFile_putFile_ne _ _ _ _
          (Ne.symm (metaPath_ne_blobPath hash key m.blobId))
      cases hbl : lookupFile st (blobPath m.blobId) with
      | some content =>
        rw [hstat]
        simp only [hblobeq, hbl, outcomeOf]
      | none =>
        rw [hstat]
        simp only [hblobeq, hbl]
        rw [ih (putFile st (metaPath hash key)
          ((m.setLatestAccess now).toBytes))]
        exact specGet_congr hash st _
          (specKeyStatus_putMeta hash st key m now hrm) ks

/-- C2 counterexample: a one-byte (corrupt) meta record for the first
key makes `get` surface an `UnexpectedEof` error — not the
`InvalidData` error the claim names, and not the miss the claim's
"none iff all fail" clause would require. -/
theorem get_truncated_meta_error_kind :
    outcomeOf (cacheGet (fun _ => "h") ⟨0, 0⟩
        [(["meta", "h", "k0"], [0])] ["k0", "k1"]) =
      .failed .unexpectedEof ∧
    ErrKind.unexpectedEof ≠ ErrKind.invalidData ∧
    outcomeOf (cacheGet (fun _ => "h") ⟨0, 0⟩
        [(["meta", "h", "k0"], [0])] ["k0", "k1"]) ≠ .miss := by
  refine ⟨by rfl, by decide, ?_⟩
  intro hc
  rw [show outcomeOf (cacheGet (fun _ => "h") ⟨0, 0⟩
      [(["meta", "h", "k0"], [0])] ["k0", "k1"]) =
      .failed .unexpectedEof from rfl] at hc
  cases hc

/-! ## Claim C3: lemmas about deletion, sorting and the eviction loop -/

theorem lookupFile_filter_self (st : StorageM) (p : SPath) :
    lookupFile (st.filter (fun pc => pc.1 ≠ p)) p = none := by
  induction st with
  | nil => rfl
  | cons pc rest ih =>
    by_cases hp : pc.1 = p
    · simpa [List.filter_cons, hp] using ih
    · simpa [List.filter_cons, hp, lookupFile] using ih

theorem removePaths_cons (p : SPath) (ps : List SPath) (st : StorageM) :
    removePaths (p :: ps) st =
      removePaths ps (st.filter (fun pc => pc.1 ≠ p)) := rfl

theorem removePaths_append (ps qs : List SPath) (st : StorageM) :
    removePaths (ps ++ qs) st = removePaths qs (removePaths ps st) := by
  simp [removePaths, List.foldl_append]

theorem lookup_removePaths (ps : List SPath) (st : StorageM) (q : SPath) :
    lookupFile (removePaths ps st) q =
      if q ∈ ps then none else lookupFile st q := by
  induction ps generalizing st with
  | nil => simp [removePaths]
  | cons p ps ih =>
    rw [removePaths_cons, ih]
    by_cases hq : q = p
    · subst hq
      by_cases hmem : q ∈ ps
      · simp [hmem]
      · simpa [hmem] using lookupFile_filter_self st q
    · by_cases hmem : q ∈ ps
      · simp [hmem, hq]
      · simpa [hmem, hq] using lookupFile_filter_ne st p q hq

theorem deleteFile_ok (st : StorageM) (p : SPath)
    (h : (lookupFile st p).isSome = true) :
    deleteFile st p = .ok (st.filter (fun pc => pc.1 ≠ p)) := by
  unfold deleteFile
  cases hl : lookupFile st p with
  | none => simp [hl] at h
  | some c => simp only [hl]

theorem deleteMetas_run (hash : String → String) (ks : List String)
    (st : StorageM) (hnd : (ks.map (metaPath hash)).Nodup)
    (hp : ∀ k ∈ ks, (lookupFile st (metaPath hash k)).isSome = true) :
    deleteMetas hash ks st =
      .ok (removePaths (ks.map (metaPath hash)) st) := by
  induction ks generalizing st with
  | nil => rfl
  | cons k ks ih =>
    unfold deleteMetas
    rw [deleteFile_ok st _ (hp k (List.mem_cons_self _ _))]
    have hnotmem : metaPath hash k ∉ ks.map (metaPath hash) :=
      (List.nodup_cons.mp (by simpa using hnd)).1
    have hp' : ∀ k' ∈ ks,
        (lookupFile (st.filter (fun pc => pc.1 ≠ metaPath hash k))
          (metaPath hash k')).isSome = true := by
      intro k' hk'
      have hne : metaPath hash k' ≠ metaPath hash k := by
        intro hc
        exact hnotmem (hc ▸ List.mem_map_of_mem (metaPath hash) hk')
      rw [lookupFile_filter_ne st _ _ hne]
      exact hp k' (List.mem_cons_of_mem _ hk')
    simp only []
    rw [ih _ (List.nodup_cons.mp (by simpa using hnd)).2 hp']
    rfl

theorem cleanLoop_run (hash : String → String) (cutoffB : Ts) (maxB : Nat) :
    ∀ (l : List BlobAgg) (total : Nat) (st : StorageM),
    (l.flatMap (aggPaths hash)).Nodup →
    (∀ a ∈ l, ∀ p ∈ aggPaths hash a, (lookupFile st p).isSome = true) →
    cleanLoop hash cutoffB maxB l total st =
      .ok (removePaths
        ((evictSplit cutoffB maxB l total).1.flatMap (aggPaths hash)) st) := by
  intro l
  induction l with
  | nil => intro total st _ _; rfl
  | cons a rest ih =>
    intro total st hnd hp
    unfold cleanLoop evictSplit
    by_cases hcond : (tsLEb cutoffB a.latestAccess ∧ total ≤ maxB)
    · rw [if_pos hcond, if_pos hcond]
      rfl
    · rw [if_neg hcond, if_neg hcond]
      have hndbind : ((aggPaths hash a) ++ rest.flatMap (aggPaths hash)).Nodup := by
        simpa [List.flatMap_cons] using hnd
      have hndmetas : (a.keys.map (metaPath hash)).Nodup := by
        have h1 : (aggPaths hash a).Nodup := hndbind.of_append_left
        exact (by simpa [aggPaths] using h1 : ((a.keys.map (metaPath hash))
          ++ [blobPath a.blobId]).Nodup).of_append_left
      have hpm : ∀ k ∈ a.keys,
          (lookupFile st (metaPath hash k)).isSome = true := by
        intro k hk
        exact hp a (List.mem_cons_self _ _) _
          (by simp [aggPaths, List.mem_append, List.mem_map_of_mem _ hk])
      rw [deleteMetas_run hash a.keys st hndmetas hpm]
      simp only []
      have hbp : (lookupFile
          (removePaths (a.keys.map (metaPath hash)) st)
          (blobPath a.blobId)).isSome = true := by
        rw [lookup_removePaths]
        have hnm : blobPath a.blobId ∉ a.keys.map (metaPath hash) := by
          intro hc
          obtain ⟨k, _, hk⟩ := List.mem_map.mp hc
          exact metaPath_ne_blobPath hash k a.blobId hk
        rw [if_neg hnm]
        exact hp a (List.mem_cons_self _ _) _
          (by simp [aggPaths, List.mem_append])
      rw [deleteFile_ok _ _ hbp]
      simp only []
      have hst2 : (removePaths (a.keys.map (metaPath hash)) st).filter
          (fun pc => pc.1 ≠ blobPath a.blobId) =
          removePaths (aggPaths hash a) st := by
        rw [aggPaths, removePaths_append]
        rfl
      have hdisj : List.Disjoint (aggPaths hash a)
          (rest.flatMap (aggPaths hash)) :=
        List.disjoint_of_nodup_append hndbind
      have hp' : ∀ b ∈ rest, ∀ p ∈ aggPaths hash b,
          (lookupFile (removePaths (aggPaths hash a) st) p).isSome = true := by
        intro b hb p hpb
        rw [lookup_removePaths]
        have hpn : p ∉ aggPaths hash a := by
          intro hc
          exact hdisj hc (List.mem_flatMap.mpr ⟨b, hb, hpb⟩)
        rw [if_neg hpn]
        exact hp b (List.mem_cons_of_mem _ hb) p hpb
      rw [hst2, ih (total - a.size) _ hndbind.of_append_right hp']
      show Except.ok _ = Except.ok (removePaths (aggPaths hash a ++
        (evictSplit cutoffB maxB rest (total - a.size)).1.flatMap
          (aggPaths hash)) st)
      rw [removePaths_append]

theorem tsLEb_iff {a b : Ts} : tsLEb a b = true ↔
    (a.secs < b.secs ∨ (a.secs = b.secs ∧ a.nsecs ≤ b.nsecs)) := by
  unfold tsLEb
  exact decide_eq_true_iff

theorem tsLTb_iff {a b : Ts} : tsLTb a b = true ↔
    (a.secs < b.secs ∨ (a.secs = b.secs ∧ a.nsecs < b.nsecs)) := by
  unfold tsLTb
  exact decide_eq_true_iff

theorem popBefore_iff {a b : BlobAgg} : popBefore a b = true ↔
    (tsLTb a.latestAccess b.latestAccess = true ∨
      (a.latestAccess = b.latestAccess ∧
        (b.size < a.size ∨ (a.size = b.size ∧
          bytesLexLT b.blobId a.blobId = true)))) := by
  unfold popBefore
  exact decide_eq_true_iff

theorem tsLEb_trans {a b c : Ts} (h1 : tsLEb a b = true)
    (h2 : tsLEb b c = true) : tsLEb a c = true := by
  rw [tsLEb_iff] at h1 h2 ⊢
  omega

theorem popBefore_true_le {a b : BlobAgg} (h : popBefore a b = true) :
    tsLEb a.latestAccess b.latestAccess = true := by
  rw [popBefore_iff] at h
  rw [tsLEb_iff]
  rcases h with h | ⟨heq, _⟩
  · rw [tsLTb_iff] at h
    omega
  · rw [heq]
    omega

theorem popBefore_false_le {a b : BlobAgg} (h : popBefore b a = false) :
    tsLEb a.latestAccess b.latestAccess = true := by
  have h' : ¬ (popBefore b a = true) := by simp [h]
  rw [popBefore_iff] at h'
  have hlt : ¬ (b.latestAccess.secs < a.latestAccess.secs ∨
      (b.latestAccess.secs = a.latestAccess.secs ∧
        b.latestAccess.nsecs < a.latestAccess.nsecs)) :=
    fun hc => h' (Or.inl (tsLTb_iff.mpr hc))
  rw [tsLEb_iff]
  omega

theorem insertPop_perm (a : BlobAgg) (l : List BlobAgg) :
    List.Perm (insertPop a l) (a :: l) := by
  induction l with
  | nil => exact List.Perm.refl _
  | cons b rest ih =>
    unfold insertPop
    by_cases h : popBefore b a = true
    · rw [if_pos h]
      exact (ih.cons b).trans (List.Perm.swap a b rest)
    · rw [if_neg h]

theorem sortPop_perm (l : List BlobAgg) : List.Perm (sortPop l) l := by
  induction l with
  | nil => exact List.Perm.refl _
  | cons a rest ih => exact (insertPop_perm a (sortPop rest)).trans (ih.cons a)

theorem pairwise_insertPop (a : BlobAgg) (l : List BlobAgg)
    (h : l.Pairwise (fun x y => tsLEb x.latestAccess y.latestAccess = true)) :
    (insertPop a l).Pairwise
      (fun x y => tsLEb x.latestAccess y.latestAccess = true) := by
  induction l with
  | nil => simp [insertPop]
  | cons b rest ih =>
    unfold insertPop
    obtain ⟨hb, hrest⟩ := List.pairwise_cons.mp h
    by_cases hpb : popBefore b a = true
    · rw [if_pos hpb]
      refine List.pairwise_cons.mpr ⟨?_, ih hrest⟩
      intro x hx
      rcases List.mem_cons.mp ((insertPop_perm a rest).mem_iff.mp hx)
        with h1 | h1
      · subst h1; exact popBefore_true_le hpb
      · exact hb x h1
    · rw [if_neg hpb]
      have hab := popBefore_false_le (by simpa using hpb)
      refine List.pairwise_cons.mpr ⟨?_, h⟩
      intro x hx
      rcases List.mem_cons.mp hx with h1 | h1
      · subst h1; exact hab
      · exact tsLEb_trans hab (hb x h1)

theorem sortPop_pairwise (l : List BlobAgg) :
    (sortPop l).Pairwise
      (fun x y => tsLEb x.latestAccess y.latestAccess = true) := by
  induction l with
  | nil => simp [sortPop]
  | cons a rest ih => exact pairwise_insertPop a (sortPop rest) ih

theorem evictSplit_append (c : Ts) (m : Nat) :
    ∀ (l : List BlobAgg) (t : Nat),
      l = (evictSplit c m l t).1 ++ (evictSplit c m l t).2 := by
  intro l
  induction l with
  | nil => intro t; rfl
  | cons a rest ih =>
    intro t
    unfold evictSplit
    by_cases hcond : (tsLEb c a.latestAccess ∧ t ≤ m)
    · rw [if_pos hcond]
      rfl
    · rw [if_neg hcond]
      show a :: rest = (a :: (evictSplit c m rest (t - a.size)).1) ++ _
      rw [List.cons_append]
      exact congrArg (List.cons a) (ih (t - a.size))

theorem evictSplit_kept (c : Ts) (m : Nat) :
    ∀ (l : List BlobAgg) (t : Nat),
      (evictSplit c m l t).2 = [] ∨
        ∃ hd tl, (evictSplit c m l t).2 = hd :: tl ∧
          tsLEb c hd.latestAccess = true ∧
          (t - sumSizes (evictSplit c m l t).1) ≤ m := by
  intro l
  induction l with
  | nil => intro t; exact Or.inl rfl
  | cons a rest ih =>
    intro t
    unfold evictSplit
    by_cases hcond : (tsLEb c a.latestAccess ∧ t ≤ m)
    · rw [if_pos hcond]
      right
      exact ⟨a, rest, rfl, hcond.1, by simpa [sumSizes] using hcond.2⟩
    · rw [if_neg hcond]
      rcases ih (t - a.size) with hk | ⟨hd, tl, hk, hle, hsum⟩
      · exact Or.inl hk
      · right
        refine ⟨hd, tl, hk, hle, ?_⟩
        have hs : sumSizes (a :: (evictSplit c m rest (t - a.size)).1) =
            a.size + sumSizes (evictSplit c m rest (t - a.size)).1 := by
          simp [sumSizes]
        show t - sumSizes (a :: (evictSplit c m rest (t - a.size)).1) ≤ m
        rw [hs]
        omega

/-- Facts about the state `cleanLoop` leaves behind, for arbitrary
cutoff and budget: kept blobs satisfy both bounds, and an aggregate's
meta files survive exactly when its blob does. -/
theorem cleanFacts (hash : String → String) (cutoffB : Ts) (maxB : Nat)
    (st st' : StorageM) (A : List BlobAgg)
    (H4 : ∀ a ∈ A, (lookupFile st (blobPath a.blobId)).isSome = true)
    (H5 : ∀ a ∈ A, ∀ k ∈ a.keys,
      (lookupFile st (metaPath hash k)).isSome = true)
    (H6 : (A.flatMap (aggPaths hash)).Nodup)
    (Hok : cleanLoop hash cutoffB maxB (sortPop A) (sumSizes A) st =
      .ok st') :
    (∀ a ∈ A, (lookupFile st' (blobPath a.blobId)).isSome = true →
      tsLEb cutoffB a.latestAccess = true) ∧
    (sumSizes (A.filter
      (fun a => (lookupFile st' (blobPath a.blobId)).isSome)) ≤ maxB) ∧
    (∀ a ∈ A, ∀ k ∈ a.keys,
      ((lookupFile st' (metaPath hash k)).isSome = true ↔
       (lookupFile st' (blobPath a.blobId)).isSome = true)) := by
  have hpermA := sortPop_perm A
  have hpermbind : List.Perm ((sortPop A).flatMap (aggPaths hash))
      (A.flatMap (aggPaths hash)) := hpermA.flatMap_right _
  have hndS : ((sortPop A).flatMap (aggPaths hash)).Nodup :=
    hpermbind.nodup_iff.mpr H6
  have hbpmem : ∀ a : BlobAgg, blobPath a.blobId ∈ aggPaths hash a := by
    intro a
    simp [aggPaths]
  have hmpmem : ∀ (a : BlobAgg) (k : String), k ∈ a.keys →
      metaPath hash k ∈ aggPaths hash a := by
    intro a k hk
    simp [aggPaths, List.mem_map_of_mem _ hk]
  have hpS : ∀ a ∈ sortPop A, ∀ p ∈ aggPaths hash a,
      (lookupFile st p).isSome = true := by
    intro a ha p hp
    have haA : a ∈ A := hpermA.mem_iff.mp ha
    simp only [aggPaths] at hp
    rcases List.mem_append.mp hp with hm | hb
    · obtain ⟨k, hk, hkp⟩ := List.mem_map.mp hm
      rw [← hkp]
      exact H5 a haA k hk
    · rw [List.mem_singleton.mp hb]
      exact H4 a haA
  rw [cleanLoop_run hash cutoffB maxB (sortPop A) (sumSizes A) st hndS hpS]
    at Hok
  injection Hok with hst
  subst hst
  have hsplitkept := evictSplit_kept cutoffB maxB (sortPop A) (sumSizes A)
  have hsplit := evictSplit_append cutoffB maxB (sortPop A) (sumSizes A)
  obtain ⟨d, k, hdk⟩ : ∃ d k,
      evictSplit cutoffB maxB (sortPop A) (sumSizes A) = (d, k) :=
    ⟨_, _, rfl⟩
  rw [hdk] at hsplit hsplitkept ⊢
  simp only [] at hsplit hsplitkept
  generalize hstF : removePaths (d.flatMap (aggPaths hash)) st = stF
  have hndDK : (d.flatMap (aggPaths hash) ++
      k.flatMap (aggPaths hash)).Nodup := by
    rw [← List.flatMap_append, ← hsplit]
    exact hndS
  have hdisj := List.disjoint_of_nodup_append hndDK
  have hmem2 : ∀ a ∈ A, a ∈ d ∨ a ∈ k :=
    fun a ha => List.mem_append.mp (hsplit ▸ (hpermA.mem_iff.mpr ha))
  have hpop : ∀ a ∈ d, ∀ p ∈ aggPaths hash a,
      lookupFile stF p = none := by
    intro a ha p hp
    rw [← hstF, lookup_removePaths,
      if_pos (List.mem_flatMap.mpr ⟨a, ha, hp⟩)]
  have hkeep : ∀ a ∈ k, ∀ p ∈ aggPaths hash a,
      lookupFile stF p = lookupFile st p := by
    intro a ha p hp
    rw [← hstF, lookup_removePaths,
      if_neg (fun hc => hdisj hc (List.mem_flatMap.mpr ⟨a, ha, hp⟩))]
  have hmemA : ∀ a ∈ k, a ∈ A := by
    intro a ha
    exact hpermA.mem_iff.mp (hsplit ▸ List.mem_append_right _ ha)
  refine ⟨?_, ?_, ?_⟩
  · -- every surviving aggregate blob is fresh enough
    intro a haA hpres
    rcases hmem2 a haA with had | hak
    · rw [hpop a had _ (hbpmem a)] at hpres
      cases hpres
    · rcases hsplitkept with hk0 | ⟨hd0, tl0, hk0, hle0, _⟩
      · rw [hk0] at hak
        cases hak
      · have hpair := sortPop_pairwise A
        rw [hsplit, List.pairwise_append] at hpair
        have hpk := hpair.2.1
        rw [hk0] at hpk hak
        obtain ⟨hhd, _⟩ := List.pairwise_cons.mp hpk
        rcases List.mem_cons.mp hak with h1 | h1
        · rw [h1]
          exact hle0
        · exact tsLEb_trans hle0 (hhd a h1)
  · -- the surviving aggregates fit the size budget
    have hfilterd : d.filter
        (fun a => (lookupFile stF (blobPath a.blobId)).isSome) = [] := by
      rw [List.filter_eq_nil_iff]
      intro a ha
      simp [hpop a ha _ (hbpmem a)]
    have hfilterk : k.filter
        (fun a => (lookupFile stF (blobPath a.blobId)).isSome) = k := by
      rw [List.filter_eq_self]
      intro a ha
      rw [hkeep a ha _ (hbpmem a)]
      exact H4 a (hmemA a ha)
    have heq : (sortPop A).filter
        (fun a => (lookupFile stF (blobPath a.blobId)).isSome) = k := by
      rw [hsplit, List.filter_append, hfilterd, hfilterk, List.nil_append]
    have hsum1 : sumSizes (A.filter
        (fun a => (lookupFile stF (blobPath a.blobId)).isSome)) =
        sumSizes k := by
      rw [← heq]
      simp only [sumSizes]
      exact ((hpermA.filter
        (fun a => (lookupFile stF (blobPath a.blobId)).isSome)).symm.map
          (fun a => a.size)).sum_eq
    rw [hsum1]
    have hsumA : sumSizes A = sumSizes d + sumSizes k := by
      have h1 : sumSizes (sortPop A) = sumSizes A := by
        simp only [sumSizes]
        exact (hpermA.map (fun a => a.size)).sum_eq
      rw [← h1, hsplit]
      simp [sumSizes, List.sum_append]
    rcases hsplitkept with hk0 | ⟨hd0, tl0, hk0, _, hsum⟩
    · rw [hk0]
      simp [sumSizes]
    · omega
  · -- meta files survive exactly when the blob does
    intro a haA k2 hk2
    rcases hmem2 a haA with had | hak
    · rw [hpop a had _ (hmpmem a k2 hk2), hpop a had _ (hbpmem a)]
    · rw [hkeep a hak _ (hmpmem a k2 hk2), hkeep a hak _ (hbpmem a)]
      simp [H5 a haA k2 hk2, H4 a haA]

/-- C3 (amended): after `clean(max_unused_age, max_total_size)` returns
successfully, restricted to the blobs the scan could aggregate (those
referenced by at least one parseable meta record): (a) every remaining
aggregated blob has at least one key whose latest access is at least
`now - max_unused_age` (the aggregate's `latest_access` is that
maximum); (b) the sizes of the remaining aggregated blobs sum to at
most `max_total_size`; (c) an aggregate's keys are removed exactly when
its blob is removed — so no meta record of an aggregate dangles.
Unreferenced blobs and pre-existing dangling meta records are not
touched by `clean`, which is what the counterexample exhibits.  The
hypotheses say the scan succeeded and the scanned files are placed
consistently (distinct paths, metas at their hashed locations, blobs
present). -/
theorem clean_postconditions (hash : String → String) (now : Ts)
    (age : Option Ts) (maxSz : Option Nat) (st st' : StorageM)
    (bs : List (Bytes × Nat)) (A : List BlobAgg)
    (H1 : collectBlobSizes st = .ok bs)
    (H2 : collectAggs st bs = .ok A)
    (H4 : ∀ a ∈ A, (lookupFile st (blobPath a.blobId)).isSome = true)
    (H5 : ∀ a ∈ A, ∀ k ∈ a.keys,
      (lookupFile st (metaPath hash k)).isSome = true)
    (H6 : (A.flatMap (aggPaths hash)).Nodup)
    (Hok : clean hash now age maxSz st = .ok st') :
    (∀ d, age = some d → ∀ a ∈ A,
      (lookupFile st' (blobPath a.blobId)).isSome = true →
      tsLEb (tsSub now d) a.latestAccess = true) ∧
    (∀ m, maxSz = some m →
      sumSizes (A.filter
        (fun a => (lookupFile st' (blobPath a.blobId)).isSome)) ≤ m) ∧
    (∀ a ∈ A, ∀ k ∈ a.keys,
      ((lookupFile st' (metaPath hash k)).isSome = true ↔
       (lookupFile st' (blobPath a.blobId)).isSome = true)) := by
  by_cases hnone : (age = none ∧ maxSz = none)
  · unfold clean at Hok
    rw [if_pos hnone] at Hok
    injection Hok with hst
    subst hst
    refine ⟨?_, ?_, ?_⟩
    · intro d hd
      rw [hnone.1] at hd
      cases hd
    · intro m hm
      rw [hnone.2] at hm
      cases hm
    · intro a ha k hk
      simp [H5 a ha k hk, H4 a ha]
  · unfold clean at Hok
    rw [if_neg hnone] at Hok
    simp only [H1, H2] at Hok
    cases age with
    | none =>
      cases maxSz with
      | none => exact absurd ⟨rfl, rfl⟩ hnone
      | some m =>
        have hfacts := cleanFacts hash tsMinUTC m st st' A H4 H5 H6 Hok
        refine ⟨?_, ?_, hfacts.2.2⟩
        · intro d hd
          cases hd
        · intro m' hm'
          injection hm' with hm'
          subst hm'
          exact hfacts.2.1
    | some d =>
      cases maxSz with
      | none =>
        have hfacts := cleanFacts hash (tsSub now d) U64MAX st st' A
          H4 H5 H6 Hok
        refine ⟨?_, ?_, hfacts.2.2⟩
        · intro d' hd' a haA hpres
          injection hd' with hd'
          subst hd'
          exact hfacts.1 a haA hpres
        · intro m hm
          cases hm
      | some m =>
        have hfacts := cleanFacts hash (tsSub now d) m st st' A
          H4 H5 H6 Hok
        refine ⟨?_, ?_, hfacts.2.2⟩
        · intro d' hd' a haA hpres
          injection hd' with hd'
          subst hd'
          exact hfacts.1 a haA hpres
        · intro m' hm'
          injection hm' with hm'
          subst hm'
          exact hfacts.2.1

/-- C3 counterexample: a storage holding one 5-byte blob that no meta
record references; `clean(None, max_total_size = 0)` returns
successfully and leaves the blob (and hence 5 > 0 bytes under `/blob`)
in place, refuting conjuncts (a) and (b) of the claim as stated. -/
theorem clean_keeps_unreferenced_blob :
    clean (fun _ => "h") ⟨100, 0⟩ none (some 0)
        [(["blob", "aa", "aaaaaaaaaaaaaaaaaaaaaaaa"], [1, 2, 3, 4, 5])] =
      .ok [(["blob", "aa", "aaaaaaaaaaaaaaaaaaaaaaaa"], [1, 2, 3, 4, 5])] ∧
    lookupFile [(["blob", "aa", "aaaaaaaaaaaaaaaaaaaaaaaa"],
        ([1, 2, 3, 4, 5] : Bytes))]
      (blobPath (List.replicate 16 0)) = some [1, 2, 3, 4, 5] ∧
    ((iterSubdirFiles [(["blob", "aa", "aaaaaaaaaaaaaaaaaaaaaaaa"],
        ([1, 2, 3, 4, 5] : Bytes))] "blob").map
      (fun f => f.size)).sum = 5 ∧
    ¬ ((5 : Nat) ≤ 0) := by
  refine ⟨by decide, by decide, by decide, by decide⟩

/-- Witness for the amended C3 at a concrete consistent cache state
(one key, one blob, budget large enough to keep it). -/
theorem clean_postconditions_witness :
    (lookupFile (cacheSet (fun _ => "h") ⟨0, 0⟩ (List.replicate 16 0) []
        ["k"] [1, 2, 3]) (metaPath (fun _ => "h") "k")).isSome = true ↔
    (lookupFile (cacheSet (fun _ => "h") ⟨0, 0⟩ (List.replicate 16 0) []
        ["k"] [1, 2, 3])
      (blobPath ((⟨⟨0, 0⟩, 3, List.replicate 16 0, ["k"]⟩ :
        BlobAgg).blobId))).isSome = true :=
  (clean_postconditions (fun _ => "h") ⟨100, 0⟩ none (some 10)
    (cacheSet (fun _ => "h") ⟨0, 0⟩ (List.replicate 16 0) [] ["k"] [1, 2, 3])
    (cacheSet (fun _ => "h") ⟨0, 0⟩ (List.replicate 16 0) [] ["k"] [1, 2, 3])
    [(List.replicate 16 0, 3)]
    [⟨⟨0, 0⟩, 3, List.replicate 16 0, ["k"]⟩]
    (by decide) (by decide) (by decide) (by decide) (by decide)
    (by decide)).2.2
    ⟨⟨0, 0⟩, 3, List.replicate 16 0, ["k"]⟩ (by decide) "k" (by decide)

/-- C7: evaluating `HttpStatus::new` at the status line `HTTP/1.1`
(which a server may send, e.g. trimmed from a headerless status line)
reaches the out-of-bounds index: the parser panics instead of
returning an error, refuting the claim's never-panics clause. -/
theorem httpStatusNew_oob_on_short_line :
    httpStatusNew "HTTP/1.1".toList = .panicOOB ∧
      httpStatusNew "HTTP/1.1 204".toList = .panicOOB := by
  constructor <;> rfl

/-- C10: `RemoteCache::get` called with an empty key list returns a
miss immediately, without opening a connection or sending a request. -/
theorem remoteGet_empty_keys_no_request :
    remoteGetStep [] = .missWithoutRequest := rfl

theorem restoredKey_none_iff (avail : String → Bool) (keys : List String) :
    restoredKey avail keys = none ↔
      ∀ k ∈ keys, k.isEmpty = false → avail k = false := by
  simp only [restoredKey, List.find?_eq_none, cliKeys, List.mem_filter]
  constructor
  · intro h k hk hne
    have := h k ⟨hk, by simp [hne]⟩
    simpa using this
  · intro h k hk
    have := h k hk.1 (by simpa using hk.2)
    simp [this]

/-- C9 (amended): empty components of the `--keys` list are dropped for
the cache lookup, and the exit code is 4 iff no non-empty key is in
the cache; on a hit of key `r`, the exit code is 0 iff
`--success-rc-on-any-key` was given or `r` equals the first component
of the RAW key list (before dropping empty components), and 3
otherwise — so a leading empty component makes even a first-non-empty-
key hit exit 3. -/
theorem restore_exit_code_spec (flag : Bool) (keys : List String)
    (avail : String → Bool) :
    (restoreExitCode flag keys avail = 4 ↔
      ∀ k ∈ keys, k.isEmpty = false → avail k = false) ∧
    (∀ r, restoredKey avail keys = some r →
      (restoreExitCode flag keys avail = 0 ↔
        (flag = true ∨ keys.head? = some r)) ∧
      (restoreExitCode flag keys avail = 3 ↔
        (flag = false ∧ keys.head? ≠ some r))) := by
  constructor
  · cases hr : restoredKey avail keys with
    | none =>
      simp only [restoreExitCode, hr]
      simpa using (restoredKey_none_iff avail keys).mp hr
    | some r =>
      simp only [restoreExitCode, hr]
      constructor
      · intro h
        by_cases hc : flag = false ∧ some r ≠ keys.head? <;>
          simp [hc] at h
      · intro h
        exact absurd ((restoredKey_none_iff avail keys).mpr h)
          (by simp [hr])
  · intro r hr
    simp only [restoreExitCode, hr]
    by_cases hf : flag = false
    · by_cases hh : keys.head? = some r
      · have hc : ¬ (flag = false ∧ some r ≠ keys.head?) := by simp [hh]
        simp [if_neg hc, hf, hh]
      · have hc : flag = false ∧ some r ≠ keys.head? :=
          ⟨hf, fun hc => hh hc.symm⟩
        simp [if_pos hc, hf, hh]
        exact fun hc2 => hh hc2.symm
    · have hft : flag = true := by
        cases flag
        · exact absurd rfl hf
        · rfl
      have hc : ¬ (flag = false ∧ some r ≠ keys.head?) := fun hc => hf hc.1
      simp [if_neg hc, hft]

/-- Witness for the amended C9 at a concrete invocation. -/
theorem restore_exit_code_spec_witness :
    restoredKey (fun k => k == "a") ["", "a"] = some "a" ∧
      (restoreExitCode false ["", "a"] (fun k => k == "a") = 0 ↔
        (false = true ∨ (["", "a"] : List String).head? = some "a")) :=
  ⟨by decide,
   ((restore_exit_code_spec false ["", "a"] (fun k => k == "a")).2 "a"
     (by decide)).1⟩

/-- C9 counterexample: `--keys ,a` (raw list `["", "a"]`) with key `a`
in the cache exits 3, although `a` is the primary key after dropping
the empty component; the claim predicts exit 0. -/
theorem restore_exit3_on_empty_first_component :
    cliKeys ["", "a"] = ["a"] ∧
      restoredKey (fun k => k == "a") ["", "a"] = some "a" ∧
      restoreExitCode false ["", "a"] (fun k => k == "a") = 3 ∧
      (3 : Nat) ≠ 0 := by
  refine ⟨by decide, by decide, by decide, by decide⟩

/-- C8 counterexample: `get("/../x")` is accepted (no error) although
the resulting location escapes the storage root — only `put` performs
the `..` check, refuting the claim that every operation rejects
escaping paths. -/
theorem fsGet_accepts_escaping_path :
    fsGetPath ["root".toList] "/../x".toList =
      .ok ["root".toList, "..".toList, "x".toList] ∧
      escapesRoot ["root".toList]
        ["root".toList, "..".toList, "x".toList] = true := by
  refine ⟨by decide, by decide⟩

/-- C8 (amended): every operation rejects non-absolute paths with
`InvalidInput`; only `put` additionally rejects `..` components, and
only in the parent-directory part of the path (and only when the
storage root exists) — `get`, `delete`, `exists_file` and `list`
accept any absolute path, including ones that resolve outside the
root. -/
theorem fs_path_validation (rootE : Bool) (root : List FsSeg)
    (p : List Char) :
    (startsWithSlash p = false →
      fsGetPath root p = .error .invalidInput ∧
      fsPutPath rootE root p = .error .invalidInput) ∧
    (∀ canonical, fsPutPath true root p = .ok canonical →
      dotdot ∉ canonical.dropLast) := by
  constructor
  · intro h
    constructor
    · unfold fsGetPath canonicalPath
      rw [h]
      rfl
    · unfold fsPutPath canonicalPath
      rw [h]
      rfl
  · intro canonical h
    unfold fsPutPath canonicalPath at h
    by_cases hs : startsWithSlash p = true
    · simp only [if_pos hs] at h
      split at h
      · exact Except.noConfusion h
      · rename_i hc
        injection h with h
        subst h
        intro hmem
        exact hc ⟨by trivial, hmem⟩
    · simp only [if_neg hs] at h
      exact Except.noConfusion h

/-- Witness for the amended C8 at concrete paths. -/
theorem fs_path_validation_witness :
    (fsGetPath ["r".toList] "rel".toList = .error .invalidInput ∧
      fsPutPath false ["r".toList] "rel".toList = .error .invalidInput) ∧
    dotdot ∉ (["r".toList, "a".toList, "b".toList] :
      List FsSeg).dropLast :=
  ⟨(fs_path_validation false ["r".toList] "rel".toList).1 (by decide),
   (fs_path_validation true ["r".toList] "/a/b".toList).2
     ["r".toList, "a".toList, "b".toList] (by decide)⟩

/-- C6: on a cache hit the server responds 200 and streams the blob
body, but the response carries NO headers — in particular neither
`Btdt-Cache-Key` nor `Content-Length` is set (`From<CacheHit>` discards
the matched key and the size hint); misses yield 204 and an unknown
cache id 404. -/
theorem api_get_hit_has_no_headers :
    apiGetFromCache (fun _ => "aa") ⟨1, 0⟩
        [("c", cacheSet (fun _ => "aa") ⟨0, 0⟩ (List.replicate 16 0) []
          ["k"] [1, 2])] "c" ["k"] =
      .ok ⟨200, [], some [1, 2]⟩ ∧
    apiGetFromCache (fun _ => "aa") ⟨1, 0⟩
        [("c", cacheSet (fun _ => "aa") ⟨0, 0⟩ (List.replicate 16 0) []
          ["k"] [1, 2])] "c" ["missing"] =
      .ok ⟨204, [], none⟩ ∧
    apiGetFromCache (fun _ => "aa") ⟨1, 0⟩
        [("c", cacheSet (fun _ => "aa") ⟨0, 0⟩ (List.replicate 16 0) []
          ["k"] [1, 2])] "other" ["k"] =
      .ok ⟨404, [], none⟩ := by
  refine ⟨by decide, by decide, by decide⟩

end Btdt
